import Mathlib

/-!
Verification of the transaction-categorization engine of the
`finance-dashboard` repository (file `src/utils/categorizer.ts`).

The TypeScript source is shallowly embedded as follows:
* JavaScript strings are modelled as `List Char` (`JsStr`); the string
  operations the categorizer uses (`toLowerCase`, `includes`, `trim`,
  `split(/\s+/)`, `replace(/[^\w\sÀ-ÖØ-öø-ÿ]/g, "")`, `.length`) are
  implemented character by character below.
* JavaScript numbers are modelled as rationals (`ℚ`); every numeric
  constant of the categorizer (0.9, 0.7, 0.5, 0.4, 0.3, 0.1) is exactly
  representable.
* The external fuzzy-matching library (`fuse.js`) is not part of the
  repository.  A constructed Fuse instance is modelled as an abstract
  total search function `FuseInst := JsStr → List FuseResult`, and the
  constructor `new Fuse(rules, fuzzyOptions)` as an abstract parameter
  `mkFuse : List CategorizationRule → FuseInst`.  A search hit carries
  the matched rule and an optional raw distance score, mirroring the
  optional `score` field of a Fuse result.
* `localStorage` reads of the learned-rule key are modelled by the
  three-state `RuleStorage`: the key may be absent, unreadable/non-JSON
  (the `try/catch` path of `loadLearnedRules`), or hold a parsed rule
  list.
* Timestamps (`new Date().toISOString()`) are passed in as an opaque
  `now : String` argument.
-/

set_option autoImplicit false

/-- Model of a JavaScript string: its sequence of characters. -/
abbrev JsStr := List Char

/-- Character list of a Lean string literal. -/
def chars (s : String) : JsStr := s.data

/-- Whitespace test used by the model for `trim` and `\s`. -/
def isWs (c : Char) : Bool :=
  c == ' ' || c == '\t' || c == '\n' || c == '\r'

/-- Uppercase/lowercase pairs for the Basic Latin and Latin-1 letters that
occur in the categorizer's data, modelling `String.prototype.toLowerCase`. -/
def lowerPairs : List (Char × Char) :=
  [('A', 'a'), ('B', 'b'), ('C', 'c'), ('D', 'd'), ('E', 'e'), ('F', 'f'),
   ('G', 'g'), ('H', 'h'), ('I', 'i'), ('J', 'j'), ('K', 'k'), ('L', 'l'),
   ('M', 'm'), ('N', 'n'), ('O', 'o'), ('P', 'p'), ('Q', 'q'), ('R', 'r'),
   ('S', 's'), ('T', 't'), ('U', 'u'), ('V', 'v'), ('W', 'w'), ('X', 'x'),
   ('Y', 'y'), ('Z', 'z'),
   ('À', 'à'), ('Á', 'á'), ('Â', 'â'), ('Ã', 'ã'), ('Ä', 'ä'), ('Å', 'å'),
   ('Æ', 'æ'), ('Ç', 'ç'), ('È', 'è'), ('É', 'é'), ('Ê', 'ê'), ('Ë', 'ë'),
   ('Ì', 'ì'), ('Í', 'í'), ('Î', 'î'), ('Ï', 'ï'), ('Ð', 'ð'), ('Ñ', 'ñ'),
   ('Ò', 'ò'), ('Ó', 'ó'), ('Ô', 'ô'), ('Õ', 'õ'), ('Ö', 'ö'), ('Ø', 'ø'),
   ('Ù', 'ù'), ('Ú', 'ú'), ('Û', 'û'), ('Ü', 'ü'), ('Ý', 'ý'), ('Þ', 'þ')]

/-- Lowercase a single character (identity outside `lowerPairs`). -/
def toLowerChar (c : Char) : Char :=
  match lowerPairs.find? (fun p => p.1 == c) with
  | some p => p.2
  | none => c

/-- Model of `description.toLowerCase()`. -/
def toLowerCase (s : JsStr) : JsStr := s.map toLowerChar

/-- Does `hay` start with `needle`? (auxiliary for `containsSub`). -/
def startsWith : JsStr → JsStr → Bool
  | _, [] => true
  | [], _ :: _ => false
  | h :: hs, n :: ns => h == n && startsWith hs ns

/-- Model of `hay.includes(needle)`: substring containment. -/
def containsSub : JsStr → JsStr → Bool
  | [], needle => needle.isEmpty
  | h :: t, needle => startsWith (h :: t) needle || containsSub t needle

/-- Model of `s.trim()`: strip leading and trailing whitespace. -/
def jsTrim (s : JsStr) : JsStr :=
  ((s.dropWhile isWs).reverse.dropWhile isWs).reverse

/-- Number of non-whitespace characters of a string. -/
def countNonWs (s : JsStr) : Nat := s.countP (fun c => !isWs c)

mutual

/-- Accumulating pass of `split(/\s+/)`: `cur` holds the reversed current
token, the explicit argument is the rest of the input. -/
def splitAux (cur : JsStr) : JsStr → List JsStr
  | [] => [cur.reverse]
  | c :: rest =>
    if isWs c then cur.reverse :: skipWs rest else splitAux (c :: cur) rest

/-- Skip a (possibly trailing) whitespace run during `split(/\s+/)`. -/
def skipWs : JsStr → List JsStr
  | [] => [[]]
  | c :: rest => if isWs c then skipWs rest else splitAux [c] rest

end

/-- Model of `s.split(/\s+/)` (leading/trailing separators produce empty
tokens, exactly as in JavaScript). -/
def splitOnWs (s : JsStr) : List JsStr := splitAux [] s

/-- Character class kept by `replace(/[^\w\sÀ-ÖØ-öø-ÿ]/g, "")`: word
characters, whitespace, and the Latin-1 letter ranges. -/
def keepChar (c : Char) : Bool :=
  decide ((48 ≤ c.toNat ∧ c.toNat ≤ 57) ∨ (65 ≤ c.toNat ∧ c.toNat ≤ 90) ∨
    (97 ≤ c.toNat ∧ c.toNat ≤ 122) ∨ c.toNat = 95 ∨ isWs c = true ∨
    (192 ≤ c.toNat ∧ c.toNat ≤ 214) ∨ (216 ≤ c.toNat ∧ c.toNat ≤ 246) ∨
    (248 ≤ c.toNat ∧ c.toNat ≤ 255))

/-- Learned categorization rule (interface `CategorizationRule`). -/
structure CategorizationRule where
  keyword : JsStr
  categoryId : String
  confidence : ℚ
  usageCount : Nat
  lastUsed : String
  deriving DecidableEq, Repr

/-- Classification method tag of a `CategorizationResult`. -/
inductive Method where
  | exact
  | fuzzy
  | learned
  deriving DecidableEq, Repr

/-- Result of one classification (interface `CategorizationResult`). -/
structure CategorizationResult where
  categoryId : String
  confidence : ℚ
  matchedKeywords : List JsStr
  method : Method
  deriving DecidableEq, Repr

/-- One hit returned by a Fuse search: the matched rule and the optional
raw distance score (`score` is absent unless the Fuse options request it). -/
structure FuseResult where
  item : CategorizationRule
  score : Option ℚ
  deriving DecidableEq, Repr

/-- Abstract model of a constructed Fuse instance: a total search
function from a description to a ranked list of hits. -/
abbrev FuseInst := JsStr → List FuseResult

/-- Numeric fuzzy-matching options of the source (`fuzzyOptions`).  The
`keys: ["keyword"]` entry is implicit in the `FuseResult` model, and note
that `includeScore` is not set. -/
structure FuzzyOptions where
  threshold : ℚ
  distance : Nat
  minMatchCharLength : Nat
  ignoreLocation : Bool
  deriving DecidableEq, Repr

/-- The source's `fuzzyOptions` constant. -/
def fuzzyOptions : FuzzyOptions :=
  { threshold := 0.6, distance := 100, minMatchCharLength := 2, ignoreLocation := true }

/-- State of the persisted learned-rule storage key
(`finance_categorization_rules`): absent, unreadable/unparseable, or a
parsed rule list. -/
inductive RuleStorage where
  | absent
  | corrupt
  | stored (rules : List CategorizationRule)
  deriving DecidableEq, Repr

/-- Model of `loadLearnedRules`: an absent key and a read/parse failure
(the `catch` branch) both degrade to the empty rule list. -/
def loadLearnedRules : RuleStorage → List CategorizationRule
  | .absent => []
  | .corrupt => []
  | .stored rules => rules

/-- The static keyword taxonomy `brazilianKeywords`, transcribed verbatim
from the source in its iteration order (`Object.entries` order). -/
def brazilianKeywordsRaw : List (String × List String) := [
  ("alimentacao",
   ["restaurante", "lanchonete", "padaria", "supermercado", "mercado", "açougue", "peixaria", "hortifruti", "confeitaria", "pizzaria", "churrascaria", "fast food", "delivery", "ifood", "rappi", "food", "lanche", "janta", "almoço", "café", "carrefour", "pão de açúcar", "extra", "wal-mart", "atacarejo", "assai", "mcdonalds", "burger king", "habbibs", "outback", "pizza hut", "domino"]),
  ("transporte",
   ["uber", "99 taxi", "cabify", "posto", "gasolina", "etanol", "álcool", "gnv", "estacionamento", "pedágio", "uberx", "uber select", "comfort", "taxi", "metrô", "onibus", "ônibus", "trem", "bike", "patinete", "condução", "auto escola", "detran", "ipiranga", "shell", "texaco", "petrobras", "br", "loja auto", "pecas", "pneus", "oficina", "lavajato", "auto peças"]),
  ("moradia",
   ["aluguel", "condomínio", "financiamento", "iptu", "água", "luz", "energia", "saneamento", "sabesp", "light", "eletropaulo", "cemig", "copel", "celg", "reparo", "construção", "reforma", "material construção", "loja de tintas", "imobiliária", "imóvel", "casa", "apartamento", "edifício", " condomínio", "seguro residencial", "seguro casa", "mobília", "decoração", "moveis planejados"]),
  ("saude",
   ["farmácia", "drogaria", "droga raia", "pacheco", "panvel", "medicamento", "médico", "dentista", "psicólogo", "nutricionista", "academia", "personal", "plano de saúde", "unimed", "amil", "bradesco saúde", "sulamerica", "hospital", "clínica", "laboratório", "exame", "consulta", "sessão", "fisioterapeuta", "ortopedista", "cardiologista", "ginecologista"]),
  ("lazer",
   ["netflix", "spotify", "prime video", "hbo max", "disney+", "star+", "cinema", "teatro", "show", "festival", "parque", "praia", "clube", "viagem", "hotel", "pousada", "airbnb", "booking", "decolar", "cvc", "game", "steam", "playstation", "xbox", "nintendo", "livraria", "livro", "bar", "boate", "balada", "festa", "casino", "bingo", "loteria"]),
  ("compras",
   ["mercado livre", "americanas", "magazine luiza", "casas bahia", "fast shop", "riachuelo", "renner", "c&a", "lojas", "shopping", "iguatemi", "center", "roupas", "calçados", "bolsas", "acessórios", "eletrônicos", "celular", "computador", "notebook", "tv", "smartphone", "fone", "headphone", "presente", "brinquedo", "cosméticos", "perfume", "joias", "relógio"]),
  ("educacao",
   ["escola", "faculdade", "universidade", "curso", "pós-graduação", "mestrado", "doutorado", "especialização", "livro didático", "material escolar", "mensalidade", "anuidade", "matrícula", "aula particular", "professor particular", "idiomas", "cursinho", "vestibular", "enem", "educação infantil", "creche", "berçário"]),
  ("servicos",
   ["net", "fibra", "internet", "wifi", "celular", "vivo", "tim", "claro", "oi", "netflix", "spotify", "assinatura", "mensalidade", "conta", "plano", "seguro", "previdência", "banco", "itau", "bradesco", "caixa", "santander", "nubank", "inter", "picpay", "recarga", "cartão", "anuidade cartão"]),
  ("salario",
   ["salário", "salario", "holerite", "contracheque", "pagamento", "renda", "ordenado", "vencimento", "crédito salário", "depósito salário"]),
  ("freelance",
   ["freelance", "freela", "pj", "pessoa jurídica", "consultoria", "serviços", "projeto", "desenvolvimento", "design", "programação", "honorários"]),
  ("investimentos",
   ["tesouro direto", "cdb", "lci", "lca", "fundo", "renda fixa", "ações", "bolsa", "xp investimentos", "nuinvest", "rico", "clear", "inter invest", "dividendo", "juros", "rentabilidade", "aplicação", "resgate"]),
  ("outras_receitas",
   ["presente", "doação", "prêmio", "sorteio", "loteria", "bolão", "reembolso", "estorno", "devolução", "cashback", "milhas", "bônus"])
]

/-- The taxonomy with its keywords as character lists. -/
def brazilianKeywords : List (String × List JsStr) :=
  brazilianKeywordsRaw.map (fun p => (p.1, p.2.map String.data))

/-- Does a stored rule match a `(keyword, categoryId)` pair?  This is the
predicate of the `findIndex` call in `addLearnedRule` (case-insensitive
keyword, exact category id). -/
def ruleMatches (keyword : JsStr) (categoryId : String) (r : CategorizationRule) : Bool :=
  toLowerCase r.keyword == toLowerCase keyword && r.categoryId == categoryId

/-- In-place update of an existing rule in `addLearnedRule`:
`usageCount += 1`, `lastUsed = now`, `confidence = min(1, confidence + 0.1)`. -/
def bumpRule (now : String) (r : CategorizationRule) : CategorizationRule :=
  { r with
    usageCount := r.usageCount + 1
    lastUsed := now
    confidence := min 1 (r.confidence + 0.1) }

/-- Model of `addLearnedRule`: update the first rule matching the
`(keyword, categoryId)` pair in place, or append a fresh rule with
confidence 0.7 and usage count 1.  (The source finds the index with
`findIndex` and mutates; appending happens via `rules.push`.) -/
def addLearnedRule : List CategorizationRule → JsStr → String → String → List CategorizationRule
  | [], keyword, categoryId, now =>
    [{ keyword := toLowerCase keyword, categoryId := categoryId,
       confidence := 0.7, usageCount := 1, lastUsed := now }]
  | r :: rs, keyword, categoryId, now =>
    if ruleMatches keyword categoryId r then bumpRule now r :: rs
    else r :: addLearnedRule rs keyword categoryId now

/-- The rule store after `n` identical corrections for the same
`(keyword, categoryId)` pair, starting from the empty store. -/
def iterateAdd (keyword : JsStr) (categoryId now : String) : Nat → List CategorizationRule
  | 0 => []
  | n + 1 => addLearnedRule (iterateAdd keyword categoryId now n) keyword categoryId now

/-- Inner loop of `getCategoryByKeyword`: first keyword of the list that
the (already lowercased) description contains. -/
def firstKeywordIn (normalized : JsStr) : List JsStr → Option JsStr
  | [] => none
  | k :: ks => if containsSub normalized k then some k else firstKeywordIn normalized ks

/-- Outer loop of `getCategoryByKeyword` over `Object.entries` of the
taxonomy: first category (in taxonomy order) with a contained keyword,
together with that keyword. -/
def findTaxonomyMatch (normalized : JsStr) : List (String × List JsStr) → Option (String × JsStr)
  | [] => none
  | (categoryId, keywords) :: rest =>
    match firstKeywordIn normalized keywords with
    | some k => some (categoryId, k)
    | none => findTaxonomyMatch normalized rest

/-- Model of `getCategoryByKeyword`: exact (substring) match against the
static taxonomy, confidence 0.9. -/
def getCategoryByKeyword (description : JsStr) : Option CategorizationResult :=
  match findTaxonomyMatch (toLowerCase description) brazilianKeywords with
  | some (categoryId, keyword) =>
    some { categoryId := categoryId, confidence := 0.9,
           matchedKeywords := [keyword], method := Method.exact }
  | none => none

/-- Derived confidence of the best fuzzy hit, mirroring
`match.score ? Math.max(0.3, 1 - match.score) * match.item.confidence : 0.5`.
A missing score and the (JS-falsy) score 0 both take the `0.5` branch. -/
def fuzzyConfidence (m : FuseResult) : ℚ :=
  match m.score with
  | some s => if s = 0 then 0.5 else max 0.3 (1 - s) * m.item.confidence
  | none => 0.5

/-- Model of `getCategoryByFuzzy`: take the best-ranked hit of the Fuse
instance, if any. -/
def getCategoryByFuzzy (fuseInstance : Option FuseInst) (description : JsStr)
    (rules : List CategorizationRule) : Option CategorizationResult :=
  match fuseInstance with
  | none => none
  | some f =>
    if rules.length = 0 then none
    else
      match f description with
      | [] => none
      | m :: _ =>
        some { categoryId := m.item.categoryId, confidence := fuzzyConfidence m,
               matchedKeywords := [m.item.keyword], method := Method.fuzzy }

/-- The universal fallback result of `categorizeTransaction`. -/
def defaultResult : CategorizationResult :=
  { categoryId := "outros", confidence := 0.1, matchedKeywords := [], method := Method.exact }

/-- The Fuse instance in effect during one `categorizeTransaction` call:
the module-level instance if already initialized, otherwise the one built
lazily from the just-loaded rules (`if (!fuseInstance) initializeFuzzySearch`). -/
def effectiveSearch (mkFuse : List CategorizationRule → FuseInst)
    (fuseInstance : Option FuseInst) (rules : List CategorizationRule) : FuseInst :=
  match fuseInstance with
  | none => mkFuse rules
  | some f => f

/-- Model of `categorizeTransaction`, the main classification function.
`mkFuse` models the `new Fuse(rules, fuzzyOptions)` constructor and
`fuseInstance` the module-level instance variable. -/
def categorizeTransaction (mkFuse : List CategorizationRule → FuseInst)
    (fuseInstance : Option FuseInst) (storage : RuleStorage)
    (description : JsStr) : CategorizationResult :=
  if description = [] ∨ (jsTrim description).length < 2 then defaultResult
  else
    let learnedRules := loadLearnedRules storage
    let inst : Option FuseInst := some (effectiveSearch mkFuse fuseInstance learnedRules)
    match getCategoryByKeyword description with
    | some exactMatch => exactMatch
    | none =>
      match getCategoryByFuzzy inst description learnedRules with
      | some fuzzyMatch =>
        if fuzzyMatch.confidence > 0.4 then fuzzyMatch else defaultResult
      | none => defaultResult

/-- Transaction record (interface `Transaction` of `storage.ts`). -/
structure Transaction where
  id : String
  date : String
  description : JsStr
  amount : ℚ
  category : String
  account : String
  isManual : Bool
  deriving DecidableEq, Repr

/-- The merged record `Transaction & CategorizationResult` produced by the
spread `{ ...transaction, ...categorizeTransaction(...) }` (the two field
sets are disjoint, so no field is overwritten). -/
structure CategorizedTransaction where
  id : String
  date : String
  description : JsStr
  amount : ℚ
  category : String
  account : String
  isManual : Bool
  categoryId : String
  confidence : ℚ
  matchedKeywords : List JsStr
  method : Method
  deriving DecidableEq, Repr

/-- Merge a transaction with a categorization result, as the object
spread does. -/
def mergeResult (t : Transaction) (r : CategorizationResult) : CategorizedTransaction :=
  { id := t.id, date := t.date, description := t.description, amount := t.amount,
    category := t.category, account := t.account, isManual := t.isManual,
    categoryId := r.categoryId, confidence := r.confidence,
    matchedKeywords := r.matchedKeywords, method := r.method }

/-- Model of `categorizeTransactions`: map classification over the batch. -/
def categorizeTransactions (mkFuse : List CategorizationRule → FuseInst)
    (fuseInstance : Option FuseInst) (storage : RuleStorage)
    (transactions : List Transaction) : List CategorizedTransaction :=
  transactions.map (fun t =>
    mergeResult t (categorizeTransaction mkFuse fuseInstance storage t.description))

/-- Model of `learnFromCorrection`: add one rule per token of length > 2
of the cleaned, lowercased description, then one rule for the full
lowercased description. -/
def learnFromCorrection (rules : List CategorizationRule)
    (originalDescription : JsStr) (correctCategoryId now : String) : List CategorizationRule :=
  let lowered := toLowerCase originalDescription
  let words := (splitOnWs (lowered.filter keepChar)).filter (fun w => 2 < w.length)
  let rules' := words.foldl (fun acc w => addLearnedRule acc w correctCategoryId now) rules
  addLearnedRule rules' lowered correctCategoryId now

/-- The taxonomy flattened to `(categoryId, keyword)` pairs in iteration
order (categories in taxonomy order, keywords in list order). -/
def allTaxonomyPairs : List (String × JsStr) :=
  (brazilianKeywords.map (fun p => p.2.map (fun k => (p.1, k)))).flatten

/-- Specification-level reading of exact matching: the first
`(categoryId, keyword)` pair, in taxonomy iteration order, whose keyword
the lowercased description contains. -/
def firstTaxonomyHit (description : JsStr) : Option (String × JsStr) :=
  allTaxonomyPairs.find? (fun p => containsSub (toLowerCase description) p.2)

/-- Specification-level reading of category precedence: the first category
(in taxonomy order) one of whose keywords the lowercased description
contains. -/
def firstMatchingCategory (description : JsStr) : Option (String × List JsStr) :=
  brazilianKeywords.find? (fun p => p.2.any (fun k => containsSub (toLowerCase description) k))

/-- Both components of every lowercase-translation pair are non-whitespace. -/
theorem lowerPairs_not_ws : ∀ q ∈ lowerPairs, isWs q.1 = false ∧ isWs q.2 = false := by
  decide

/-- The translation targets of `lowerPairs` are never translation sources. -/
theorem lowerPairs_values_not_keys :
    ∀ q ∈ lowerPairs, lowerPairs.find? (fun p => p.1 == q.2) = none := by
  decide

/-- Lowercasing a character does not change whether it is whitespace. -/
theorem isWs_toLowerChar (c : Char) : isWs (toLowerChar c) = isWs c := by
  unfold toLowerChar
  cases h : lowerPairs.find? (fun p => p.1 == c) with
  | none => rfl
  | some p =>
    have hc : p.1 = c := by simpa using List.find?_some h
    have hp := lowerPairs_not_ws p (List.mem_of_find?_eq_some h)
    rw [← hc, hp.1, hp.2]

/-- Lowercasing a character is idempotent. -/
theorem toLowerChar_idem (c : Char) : toLowerChar (toLowerChar c) = toLowerChar c := by
  cases h : lowerPairs.find? (fun p => p.1 == c) with
  | none =>
    have h1 : toLowerChar c = c := by unfold toLowerChar; rw [h]
    rw [h1]; exact h1
  | some p =>
    have h1 : toLowerChar c = p.2 := by unfold toLowerChar; rw [h]
    have h2 := lowerPairs_values_not_keys p (List.mem_of_find?_eq_some h)
    rw [h1]; unfold toLowerChar; rw [h2]

/-- Lowercasing a string is idempotent. -/
theorem toLowerCase_idem (s : JsStr) : toLowerCase (toLowerCase s) = toLowerCase s := by
  unfold toLowerCase
  rw [List.map_map]
  exact List.map_congr_left (fun c _ => toLowerChar_idem c)

/-- Lowercasing preserves the number of non-whitespace characters. -/
theorem countNonWs_toLowerCase (s : JsStr) : countNonWs (toLowerCase s) = countNonWs s := by
  unfold countNonWs toLowerCase
  rw [List.countP_map]
  exact List.countP_congr (fun c _ => by simp [Function.comp, isWs_toLowerChar c])

/-- Reversal preserves the number of non-whitespace characters. -/
theorem countNonWs_reverse (s : JsStr) : countNonWs s.reverse = countNonWs s :=
  List.countP_reverse _ _

/-- Dropping a leading whitespace run preserves the non-whitespace count. -/
theorem countNonWs_dropWhile (s : JsStr) :
    countNonWs (s.dropWhile isWs) = countNonWs s := by
  induction s with
  | nil => rfl
  | cons c t ih =>
    unfold countNonWs at *
    rw [List.dropWhile_cons]
    by_cases h : isWs c
    · simp only [h, if_true, ih, List.countP_cons, Bool.not_true]
      simp
    · simp [h]

/-- Trimming preserves the number of non-whitespace characters. -/
theorem countNonWs_jsTrim (s : JsStr) : countNonWs (jsTrim s) = countNonWs s := by
  unfold jsTrim
  rw [countNonWs_reverse, countNonWs_dropWhile, countNonWs_reverse, countNonWs_dropWhile]

/-- The non-whitespace count is at most the length. -/
theorem countNonWs_le_length (s : JsStr) : countNonWs s ≤ s.length :=
  List.countP_le_length _

/-- A prefix has at most as many non-whitespace characters as the whole. -/
theorem countNonWs_le_of_startsWith (hay needle : JsStr)
    (h : startsWith hay needle = true) : countNonWs needle ≤ countNonWs hay := by
  induction needle generalizing hay with
  | nil => simp [countNonWs]
  | cons n ns ih =>
    cases hay with
    | nil => simp [startsWith] at h
    | cons c t =>
      unfold startsWith at h
      obtain ⟨hc, h2⟩ : c = n ∧ startsWith t ns = true := by simpa using h
      unfold countNonWs at *
      rw [List.countP_cons, List.countP_cons, hc]
      exact Nat.add_le_add_right (ih t h2) _

/-- A contained substring has at most as many non-whitespace characters as
the containing string. -/
theorem countNonWs_le_of_containsSub (hay needle : JsStr)
    (h : containsSub hay needle = true) : countNonWs needle ≤ countNonWs hay := by
  induction hay with
  | nil =>
    unfold containsSub at h
    have hn : needle = [] := List.isEmpty_iff.mp h
    simp [hn, countNonWs]
  | cons c t ih =>
    unfold containsSub at h
    have hor : startsWith (c :: t) needle = true ∨ containsSub t needle = true := by
      simpa using h
    cases hor with
    | inl h1 => exact countNonWs_le_of_startsWith _ _ h1
    | inr h2 =>
      refine le_trans (ih h2) ?_
      unfold countNonWs
      rw [List.countP_cons]
      omega

/-- Every taxonomy keyword has at least two non-whitespace characters. -/
theorem taxonomy_keywords_two_nonWs :
    ∀ p ∈ brazilianKeywords, ∀ k ∈ p.2, 2 ≤ countNonWs k := by
  decide

/-- A description whose lowercase form contains a string with at least two
non-whitespace characters passes the length guard of `categorizeTransaction`. -/
theorem guard_false_of_contained (desc k : JsStr)
    (hk : 2 ≤ countNonWs k) (h : containsSub (toLowerCase desc) k = true) :
    ¬(desc = [] ∨ (jsTrim desc).length < 2) := by
  intro hcase
  have h1 : 2 ≤ countNonWs (toLowerCase desc) :=
    le_trans hk (countNonWs_le_of_containsSub _ _ h)
  have h2 : 2 ≤ countNonWs desc := by rwa [countNonWs_toLowerCase] at h1
  have h3 : 2 ≤ (jsTrim desc).length := by
    refine le_trans ?_ (countNonWs_le_length _)
    rwa [countNonWs_jsTrim]
  rcases hcase with hnil | hlt
  · subst hnil
    exact absurd h3 (by decide)
  · omega

/-- The inner keyword loop is a `find?` over the keyword list. -/
theorem firstKeywordIn_eq_find (normalized : JsStr) (ks : List JsStr) :
    firstKeywordIn normalized ks = ks.find? (fun k => containsSub normalized k) := by
  induction ks with
  | nil => rfl
  | cons k ks ih =>
    unfold firstKeywordIn
    by_cases h : containsSub normalized k
    · rw [if_pos h, List.find?_cons_of_pos _ h]
    · rw [if_neg h, List.find?_cons_of_neg _ h, ih]

/-- The inner keyword loop succeeds exactly when some keyword is contained. -/
theorem firstKeywordIn_isSome (normalized : JsStr) (ks : List JsStr) :
    (firstKeywordIn normalized ks).isSome = ks.any (fun k => containsSub normalized k) := by
  induction ks with
  | nil => rfl
  | cons k ks ih =>
    unfold firstKeywordIn
    by_cases h : containsSub normalized k <;> simp [h, ih]

/-- The nested taxonomy loops compute the `find?` over the flattened
`(categoryId, keyword)` pair list. -/
theorem findTaxonomyMatch_eq_flat (normalized : JsStr) (l : List (String × List JsStr)) :
    findTaxonomyMatch normalized l =
      ((l.map (fun p => p.2.map (fun k => (p.1, k)))).flatten).find?
        (fun q => containsSub normalized q.2) := by
  induction l with
  | nil => rfl
  | cons p rest ih =>
    obtain ⟨c, ks⟩ := p
    unfold findTaxonomyMatch
    rw [List.map_cons, List.flatten_cons, List.find?_append]
    have hmap : (ks.map (fun k => (c, k))).find? (fun q => containsSub normalized q.2)
        = (ks.find? (fun k => containsSub normalized k)).map (fun k => ((c, k) : String × JsStr)) := by
      rw [List.find?_map]
      rfl
    rw [hmap, ← firstKeywordIn_eq_find]
    cases h : firstKeywordIn normalized ks with
    | some k => simp
    | none => simpa using ih

/-- The nested taxonomy loops find the first category with any contained
keyword, and within it the first contained keyword. -/
theorem findTaxonomyMatch_eq_catFind (normalized : JsStr) (l : List (String × List JsStr)) :
    findTaxonomyMatch normalized l =
      match l.find? (fun p => p.2.any (fun k => containsSub normalized k)) with
      | some p => (firstKeywordIn normalized p.2).map (fun k => (p.1, k))
      | none => none := by
  induction l with
  | nil => rfl
  | cons p rest ih =>
    obtain ⟨c, ks⟩ := p
    unfold findTaxonomyMatch
    by_cases h : ks.any (fun k => containsSub normalized k)
    · have h' : (fun p : String × List JsStr =>
          p.2.any (fun k => containsSub normalized k)) (c, ks) = true := h
      rw [@List.find?_cons_of_pos _ (fun p : String × List JsStr =>
          p.2.any (fun k => containsSub normalized k)) (c, ks) rest h']
      have hs : (firstKeywordIn normalized ks).isSome = true := by
        rw [firstKeywordIn_isSome, h]
      cases hk : firstKeywordIn normalized ks with
      | some k => simp [hk]
      | none => rw [hk] at hs; simp at hs
    · have h' : ¬((fun p : String × List JsStr =>
          p.2.any (fun k => containsSub normalized k)) (c, ks) = true) := h
      rw [@List.find?_cons_of_neg _ (fun p : String × List JsStr =>
          p.2.any (fun k => containsSub normalized k)) (c, ks) rest h']
      cases hk : firstKeywordIn normalized ks with
      | some k =>
        exfalso
        apply h
        have hs := firstKeywordIn_isSome normalized ks
        rw [hk] at hs
        exact hs.symm
      | none => simpa using ih

/-- Short or empty descriptions take the guard branch of
`categorizeTransaction` and yield the default fallback. -/
theorem categorize_guard (mkFuse : List CategorizationRule → FuseInst)
    (fuseInstance : Option FuseInst) (storage : RuleStorage) (desc : JsStr)
    (h : desc = [] ∨ (jsTrim desc).length < 2) :
    categorizeTransaction mkFuse fuseInstance storage desc = defaultResult := by
  unfold categorizeTransaction
  rw [if_pos h]

/-- When the guard passes and the taxonomy matches, `categorizeTransaction`
returns the exact match unchanged. -/
theorem categorize_exact (mkFuse : List CategorizationRule → FuseInst)
    (fuseInstance : Option FuseInst) (storage : RuleStorage) (desc : JsStr)
    (r : CategorizationResult)
    (hg : ¬(desc = [] ∨ (jsTrim desc).length < 2))
    (he : getCategoryByKeyword desc = some r) :
    categorizeTransaction mkFuse fuseInstance storage desc = r := by
  unfold categorizeTransaction
  rw [if_neg hg]
  simp only [he]

/-- When the guard passes and the taxonomy does not match,
`categorizeTransaction` applies the 0.4 threshold to the fuzzy result. -/
theorem categorize_fuzzy (mkFuse : List CategorizationRule → FuseInst)
    (fuseInstance : Option FuseInst) (storage : RuleStorage) (desc : JsStr)
    (r : CategorizationResult)
    (hg : ¬(desc = [] ∨ (jsTrim desc).length < 2))
    (he : getCategoryByKeyword desc = none)
    (hf : getCategoryByFuzzy (some (effectiveSearch mkFuse fuseInstance (loadLearnedRules storage)))
            desc (loadLearnedRules storage) = some r) :
    categorizeTransaction mkFuse fuseInstance storage desc =
      if r.confidence > 0.4 then r else defaultResult := by
  unfold categorizeTransaction
  rw [if_neg hg]
  simp only [he, hf]

/-- C6: every description that is empty, whitespace-only, or shorter than
2 characters after trimming is classified to the universal fallback
`{categoryId := "outros", confidence := 0.1, matchedKeywords := [], method := "exact"}`;
in particular `classify("")`, `classify("a")` and `classify("  ")` are. -/
theorem fallback_determinism (mkFuse : List CategorizationRule → FuseInst)
    (fuseInstance : Option FuseInst) (storage : RuleStorage) (desc : JsStr)
    (h : (jsTrim desc).length < 2) :
    categorizeTransaction mkFuse fuseInstance storage desc =
      { categoryId := "outros", confidence := 0.1, matchedKeywords := [],
        method := Method.exact } :=
  categorize_guard mkFuse fuseInstance storage desc (Or.inr h)

/-- Witness for C6: the three concrete calls of the claim. -/
theorem fallback_determinism_witness :
    categorizeTransaction (fun _ => fun _ => []) none RuleStorage.absent (chars "") =
      { categoryId := "outros", confidence := 0.1, matchedKeywords := [],
        method := Method.exact }
    ∧ categorizeTransaction (fun _ => fun _ => []) none RuleStorage.absent (chars "a") =
      { categoryId := "outros", confidence := 0.1, matchedKeywords := [],
        method := Method.exact }
    ∧ categorizeTransaction (fun _ => fun _ => []) none RuleStorage.absent (chars "  ") =
      { categoryId := "outros", confidence := 0.1, matchedKeywords := [],
        method := Method.exact } :=
  ⟨fallback_determinism _ _ _ _ (by decide),
   fallback_determinism _ _ _ _ (by decide),
   fallback_determinism _ _ _ _ (by decide)⟩

/-- C5: `categorizeTransaction` is a total function of its inputs (it has
type `... → CategorizationResult`, mirroring the source's catch-all
structure), and an absent or unreadable/malformed rule store degrades to
the empty learned-rule set: classification behaves exactly as with an
empty stored rule list. -/
theorem classify_total_on_storage_failure (mkFuse : List CategorizationRule → FuseInst)
    (fuseInstance : Option FuseInst) (desc : JsStr) (storage : RuleStorage)
    (h : storage = RuleStorage.absent ∨ storage = RuleStorage.corrupt) :
    loadLearnedRules storage = []
    ∧ categorizeTransaction mkFuse fuseInstance storage desc
        = categorizeTransaction mkFuse fuseInstance (RuleStorage.stored []) desc := by
  rcases h with h | h <;> subst h <;> exact ⟨rfl, rfl⟩

/-- Witness for C5 at the corrupt-storage state. -/
theorem classify_total_on_storage_failure_witness :
    loadLearnedRules RuleStorage.corrupt = []
    ∧ categorizeTransaction (fun _ => fun _ => []) none RuleStorage.corrupt (chars "uber")
        = categorizeTransaction (fun _ => fun _ => []) none (RuleStorage.stored []) (chars "uber") :=
  classify_total_on_storage_failure _ _ _ _ (Or.inr rfl)

/-- C1: whenever the lowercased description contains some taxonomy
keyword, `categorizeTransaction` returns — regardless of the Fuse
constructor, the module-level Fuse instance, and the stored learned
rules — the category of the first matching `(category, keyword)` pair in
taxonomy iteration order, with confidence 0.9, that keyword as the
singleton matched-keyword list, and method `"exact"`. -/
theorem exact_match_precedence (mkFuse : List CategorizationRule → FuseInst)
    (fuseInstance : Option FuseInst) (storage : RuleStorage) (desc : JsStr)
    (h : ∃ p ∈ allTaxonomyPairs, containsSub (toLowerCase desc) p.2 = true) :
    ∃ c k, firstTaxonomyHit desc = some (c, k)
      ∧ categorizeTransaction mkFuse fuseInstance storage desc =
          { categoryId := c, confidence := 0.9, matchedKeywords := [k],
            method := Method.exact } := by
  have hsome : (allTaxonomyPairs.find?
      (fun p => containsSub (toLowerCase desc) p.2)).isSome = true :=
    List.find?_isSome.mpr h
  obtain ⟨⟨c, k⟩, hck⟩ := Option.isSome_iff_exists.mp hsome
  refine ⟨c, k, hck, ?_⟩
  obtain ⟨p, hp, hcont⟩ := h
  have h2 : 2 ≤ countNonWs p.2 := by
    unfold allTaxonomyPairs at hp
    obtain ⟨lrow, hlrow, hploc⟩ := List.mem_flatten.mp hp
    obtain ⟨row, hrow, hfrow⟩ := List.mem_map.mp hlrow
    subst hfrow
    obtain ⟨k0, hk0, hk0p⟩ := List.mem_map.mp hploc
    have := taxonomy_keywords_two_nonWs row hrow k0 hk0
    rw [← hk0p]
    exact this
  have hguard := guard_false_of_contained desc p.2 h2 hcont
  have hexact : getCategoryByKeyword desc =
      some { categoryId := c, confidence := 0.9, matchedKeywords := [k],
             method := Method.exact } := by
    unfold getCategoryByKeyword
    rw [findTaxonomyMatch_eq_flat]
    have hck' : ((brazilianKeywords.map
        (fun p => p.2.map (fun k => (p.1, k)))).flatten).find?
          (fun q => containsSub (toLowerCase desc) q.2) = some (c, k) := hck
    rw [hck']
  exact categorize_exact mkFuse fuseInstance storage desc _ hguard hexact

/-- Witness for C1 on the description `"IFOOD delivery"`, which matches the
alimentacao keywords `"delivery"` (first in list order) and `"ifood"`. -/
theorem exact_match_precedence_witness :
    firstTaxonomyHit (chars "IFOOD delivery") = some ("alimentacao", chars "delivery")
    ∧ categorizeTransaction (fun _ => fun _ => []) none
        (RuleStorage.stored [⟨chars "ifood", "lazer", 1, 3, "t0"⟩])
        (chars "IFOOD delivery") =
      { categoryId := "alimentacao", confidence := 0.9,
        matchedKeywords := [chars "delivery"], method := Method.exact } := by
  have heval : firstTaxonomyHit (chars "IFOOD delivery") =
      some ("alimentacao", chars "delivery") := by decide
  obtain ⟨c, k, h1, h2⟩ := exact_match_precedence (fun _ => fun _ => []) none
    (RuleStorage.stored [⟨chars "ifood", "lazer", 1, 3, "t0"⟩])
    (chars "IFOOD delivery") (by decide)
  rw [h1] at heval
  have hpair := Option.some.inj heval
  have hc : c = "alimentacao" := congrArg Prod.fst hpair
  have hk : k = chars "delivery" := congrArg Prod.snd hpair
  rw [hc, hk] at h1 h2
  exact ⟨h1, h2⟩

/-- C8: when the description matches keywords from two distinct taxonomy
categories, `categorizeTransaction` returns the category that comes first
in taxonomy iteration order (first-match-wins over categories, and then
the first matching keyword in that category's list order), independent of
any rule-store contents. -/
theorem taxonomy_order_first_match (mkFuse : List CategorizationRule → FuseInst)
    (fuseInstance : Option FuseInst) (storage : RuleStorage) (desc : JsStr)
    (h : ∃ p ∈ brazilianKeywords, ∃ q ∈ brazilianKeywords, p.1 ≠ q.1
      ∧ p.2.any (fun k => containsSub (toLowerCase desc) k) = true
      ∧ q.2.any (fun k => containsSub (toLowerCase desc) k) = true) :
    ∃ cat k, (∃ kws, firstMatchingCategory desc = some (cat, kws)
        ∧ firstKeywordIn (toLowerCase desc) kws = some k)
      ∧ categorizeTransaction mkFuse fuseInstance storage desc =
          { categoryId := cat, confidence := 0.9, matchedKeywords := [k],
            method := Method.exact } := by
  obtain ⟨p, hp, q, hq, hpq, hpa, hqa⟩ := h
  have hsome : (brazilianKeywords.find?
      (fun p => p.2.any (fun k => containsSub (toLowerCase desc) k))).isSome = true :=
    List.find?_isSome.mpr ⟨p, hp, hpa⟩
  obtain ⟨⟨cat, kws⟩, hfind⟩ := Option.isSome_iff_exists.mp hsome
  have hkws : kws.any (fun k => containsSub (toLowerCase desc) k) = true :=
    @List.find?_some _ (fun p : String × List JsStr =>
      p.2.any (fun k => containsSub (toLowerCase desc) k)) (cat, kws) brazilianKeywords hfind
  have hks : (firstKeywordIn (toLowerCase desc) kws).isSome = true := by
    rw [firstKeywordIn_isSome]; exact hkws
  obtain ⟨k, hk⟩ := Option.isSome_iff_exists.mp hks
  refine ⟨cat, k, ⟨kws, hfind, hk⟩, ?_⟩
  obtain ⟨k0, hk0m, hk0c⟩ := List.any_eq_true.mp hpa
  have h2 : 2 ≤ countNonWs k0 := taxonomy_keywords_two_nonWs p hp k0 hk0m
  have hguard := guard_false_of_contained desc k0 h2 hk0c
  have hexact : getCategoryByKeyword desc =
      some { categoryId := cat, confidence := 0.9, matchedKeywords := [k],
             method := Method.exact } := by
    unfold getCategoryByKeyword
    rw [findTaxonomyMatch_eq_catFind]
    rw [hfind]
    simp [hk]
  exact categorize_exact mkFuse fuseInstance storage desc _ hguard hexact

/-- Witness for C8 on `"uber restaurante"`, which matches both transporte
(`"uber"`) and alimentacao (`"restaurante"`); alimentacao comes first in
taxonomy order. -/
theorem taxonomy_order_first_match_witness :
    categorizeTransaction (fun _ => fun _ => []) none RuleStorage.absent
      (chars "uber restaurante") =
    { categoryId := "alimentacao", confidence := 0.9,
      matchedKeywords := [chars "restaurante"], method := Method.exact } := by
  have e1 : (firstMatchingCategory (chars "uber restaurante")).map Prod.fst =
      some "alimentacao" := by decide
  have e2 : (firstMatchingCategory (chars "uber restaurante")).map
      (fun p => firstKeywordIn (toLowerCase (chars "uber restaurante")) p.2) =
      some (some (chars "restaurante")) := by decide
  obtain ⟨cat, k, ⟨kws, h1, h2⟩, h3⟩ := taxonomy_order_first_match
    (fun _ => fun _ => []) none RuleStorage.absent (chars "uber restaurante") (by decide)
  rw [h1] at e1 e2
  rw [Option.map_some'] at e1 e2
  have hcat : cat = "alimentacao" := Option.some.inj e1
  have hfk := Option.some.inj e2
  rw [h2] at hfk
  have hk : k = chars "restaurante" := Option.some.inj hfk
  rw [hcat, hk] at h3
  exact h3

/-- C4: the 0.4 cutoff on the derived fuzzy confidence is strict.  When
the guard passes and no taxonomy keyword matches, a best-ranked fuzzy
result with derived confidence at most 0.4 (in particular exactly 0.4) is
discarded in favour of the default fallback, and one with confidence
strictly above 0.4 is returned unchanged. -/
theorem fuzzy_threshold_strict (mkFuse : List CategorizationRule → FuseInst)
    (fuseInstance : Option FuseInst) (storage : RuleStorage) (desc : JsStr)
    (r : CategorizationResult)
    (hg : ¬(desc = [] ∨ (jsTrim desc).length < 2))
    (he : getCategoryByKeyword desc = none)
    (hf : getCategoryByFuzzy
        (some (effectiveSearch mkFuse fuseInstance (loadLearnedRules storage)))
        desc (loadLearnedRules storage) = some r) :
    (r.confidence ≤ 0.4 →
      categorizeTransaction mkFuse fuseInstance storage desc = defaultResult)
    ∧ (0.4 < r.confidence →
      categorizeTransaction mkFuse fuseInstance storage desc = r) := by
  have hc := categorize_fuzzy mkFuse fuseInstance storage desc r hg he hf
  constructor
  · intro hle
    rw [hc, if_neg (not_lt.mpr hle)]
  · intro hlt
    rw [hc, if_pos hlt]

/-- Witness for C4: a learned rule with confidence 0.8 and a raw score of
0.5 derive confidence `max(0.3, 0.5) * 0.8 = 0.4` exactly, and the
default fallback is returned. -/
theorem fuzzy_threshold_strict_witness :
    categorizeTransaction
      (fun _ => fun _ => [⟨⟨chars "mercearia", "alimentacao", 0.8, 1, "t0"⟩, some 0.5⟩])
      none
      (RuleStorage.stored [⟨chars "mercearia", "alimentacao", 0.8, 1, "t0"⟩])
      (chars "xqzw") = defaultResult := by
  have hf : getCategoryByFuzzy
      (some (effectiveSearch
        (fun _ => fun _ => [⟨⟨chars "mercearia", "alimentacao", 0.8, 1, "t0"⟩, some 0.5⟩])
        none
        (loadLearnedRules (RuleStorage.stored [⟨chars "mercearia", "alimentacao", 0.8, 1, "t0"⟩]))))
      (chars "xqzw")
      (loadLearnedRules (RuleStorage.stored [⟨chars "mercearia", "alimentacao", 0.8, 1, "t0"⟩])) =
      some { categoryId := "alimentacao", confidence := 0.4,
             matchedKeywords := [chars "mercearia"], method := Method.fuzzy } := by
    simp only [loadLearnedRules, effectiveSearch, getCategoryByFuzzy, fuzzyConfidence,
      List.length_cons, List.length_nil]
    norm_num [max_def]
  exact (fuzzy_threshold_strict
    (fun _ => fun _ => [⟨⟨chars "mercearia", "alimentacao", 0.8, 1, "t0"⟩, some 0.5⟩])
    none
    (RuleStorage.stored [⟨chars "mercearia", "alimentacao", 0.8, 1, "t0"⟩])
    (chars "xqzw") _ (by decide) (by decide) hf).1 (by norm_num)

/-- C2 (amended): for a fuzzy-path classification the derived confidence
equals `max(0.3, 1 - s) * rule.confidence` only when the best-ranked hit
carries a present, nonzero raw score `s`; when the score is absent or
exactly 0 (both JS-falsy, 0 being a perfect match), the confidence is the
fixed fallback 0.5.  The value propagates unchanged to the result of
`categorizeTransaction` whenever the fuzzy path is taken. -/
theorem fuzzy_confidence_formula (f : FuseInst) (desc : JsStr)
    (rules : List CategorizationRule) (m : FuseResult) (ms : List FuseResult)
    (hr : rules ≠ []) (hs : f desc = m :: ms) :
    ∃ r, getCategoryByFuzzy (some f) desc rules = some r
      ∧ r.categoryId = m.item.categoryId
      ∧ r.method = Method.fuzzy
      ∧ r.matchedKeywords = [m.item.keyword]
      ∧ r.confidence = (match m.score with
          | some s => if s = 0 then 0.5 else max 0.3 (1 - s) * m.item.confidence
          | none => 0.5)
      ∧ (∀ (mkFuse : List CategorizationRule → FuseInst)
            (fuseInstance : Option FuseInst) (storage : RuleStorage),
          loadLearnedRules storage = rules →
          effectiveSearch mkFuse fuseInstance rules = f →
          ¬(desc = [] ∨ (jsTrim desc).length < 2) →
          getCategoryByKeyword desc = none →
          0.4 < r.confidence →
          categorizeTransaction mkFuse fuseInstance storage desc = r) := by
  have hbase : getCategoryByFuzzy (some f) desc rules =
      some { categoryId := m.item.categoryId, confidence := fuzzyConfidence m,
             matchedKeywords := [m.item.keyword], method := Method.fuzzy } := by
    have hlen : ¬(rules.length = 0) := by simpa [List.length_eq_zero] using hr
    simp only [getCategoryByFuzzy, if_neg hlen, hs]
  refine ⟨_, hbase, rfl, rfl, rfl, rfl, ?_⟩
  intro mkFuse fuseInstance storage hload heff hg he hgt
  have hf : getCategoryByFuzzy
      (some (effectiveSearch mkFuse fuseInstance (loadLearnedRules storage)))
      desc (loadLearnedRules storage) =
      some { categoryId := m.item.categoryId, confidence := fuzzyConfidence m,
             matchedKeywords := [m.item.keyword], method := Method.fuzzy } := by
    rw [hload, heff]
    exact hbase
  rw [categorize_fuzzy mkFuse fuseInstance storage desc _ hg he hf, if_pos hgt]

/-- Counterexample for C2 as stated: with a best hit of raw score 0 (a
perfect match) on a rule of confidence 0.7, the fuzzy path is taken and
the returned confidence is the falsy-branch constant 0.5, not
`max(0.3, 1 - 0) * 0.7 = 0.7` as the claim's formula requires. -/
theorem fuzzy_confidence_perfect_score_counterexample :
    (categorizeTransaction
        (fun _ => fun _ => [⟨⟨chars "padoca", "alimentacao", 0.7, 1, "t0"⟩, some 0⟩])
        none (RuleStorage.stored [⟨chars "padoca", "alimentacao", 0.7, 1, "t0"⟩])
        (chars "xqzw")).method = Method.fuzzy
    ∧ (categorizeTransaction
        (fun _ => fun _ => [⟨⟨chars "padoca", "alimentacao", 0.7, 1, "t0"⟩, some 0⟩])
        none (RuleStorage.stored [⟨chars "padoca", "alimentacao", 0.7, 1, "t0"⟩])
        (chars "xqzw")).confidence = 0.5
    ∧ max (0.3 : ℚ) (1 - 0) * (0.7 : ℚ) = 0.7
    ∧ (0.5 : ℚ) ≠ max (0.3 : ℚ) (1 - 0) * (0.7 : ℚ) := by
  have hcls : categorizeTransaction
      (fun _ => fun _ => [⟨⟨chars "padoca", "alimentacao", 0.7, 1, "t0"⟩, some 0⟩])
      none (RuleStorage.stored [⟨chars "padoca", "alimentacao", 0.7, 1, "t0"⟩])
      (chars "xqzw") =
      { categoryId := "alimentacao", confidence := 0.5,
        matchedKeywords := [chars "padoca"], method := Method.fuzzy } := by
    have hf : getCategoryByFuzzy
        (some (effectiveSearch
          (fun _ => fun _ => [⟨⟨chars "padoca", "alimentacao", 0.7, 1, "t0"⟩, some 0⟩])
          none
          (loadLearnedRules (RuleStorage.stored [⟨chars "padoca", "alimentacao", 0.7, 1, "t0"⟩]))))
        (chars "xqzw")
        (loadLearnedRules (RuleStorage.stored [⟨chars "padoca", "alimentacao", 0.7, 1, "t0"⟩])) =
        some { categoryId := "alimentacao", confidence := 0.5,
               matchedKeywords := [chars "padoca"], method := Method.fuzzy } := by
      simp only [loadLearnedRules, effectiveSearch, getCategoryByFuzzy, fuzzyConfidence,
        List.length_cons, List.length_nil]
      norm_num
    rw [categorize_fuzzy _ _ _ _ _ (by decide) (by decide) hf]
    norm_num
  refine ⟨by rw [hcls], by rw [hcls], by norm_num [max_def], by norm_num [max_def]⟩

/-- Witness for C2 (amended): a present nonzero score 0.25 on a rule of
confidence 0.8 yields confidence `max(0.3, 0.75) * 0.8 = 0.6`, which is
what `categorizeTransaction` returns on the fuzzy path. -/
theorem fuzzy_confidence_formula_witness :
    (categorizeTransaction
        (fun _ => fun _ => [⟨⟨chars "mercadinho", "alimentacao", 0.8, 1, "t0"⟩, some 0.25⟩])
        none (RuleStorage.stored [⟨chars "mercadinho", "alimentacao", 0.8, 1, "t0"⟩])
        (chars "xqzw")).confidence = 0.6 := by
  obtain ⟨r, hbase, hcat, hm, hkw, hconf, hcls⟩ := fuzzy_confidence_formula
    ((fun _ => fun _ => [⟨⟨chars "mercadinho", "alimentacao", 0.8, 1, "t0"⟩, some 0.25⟩])
      ([⟨chars "mercadinho", "alimentacao", 0.8, 1, "t0"⟩] : List CategorizationRule))
    (chars "xqzw")
    [⟨chars "mercadinho", "alimentacao", 0.8, 1, "t0"⟩]
    ⟨⟨chars "mercadinho", "alimentacao", 0.8, 1, "t0"⟩, some 0.25⟩ []
    (by simp) rfl
  have hr6 : r.confidence = 0.6 := by
    rw [hconf]
    norm_num [max_def]
  rw [hcls (fun _ => fun _ => [⟨⟨chars "mercadinho", "alimentacao", 0.8, 1, "t0"⟩, some 0.25⟩])
    none (RuleStorage.stored [⟨chars "mercadinho", "alimentacao", 0.8, 1, "t0"⟩])
    rfl rfl (by decide) (by decide) (by rw [hr6]; norm_num)]
  exact hr6

/-- When no stored rule matches the pair, `addLearnedRule` appends a fresh
rule with confidence 0.7 and usage count 1. -/
theorem addLearnedRule_of_no_match (rules : List CategorizationRule)
    (kw : JsStr) (cat now : String)
    (h : ∀ r ∈ rules, ruleMatches kw cat r = false) :
    addLearnedRule rules kw cat now
      = rules ++ [⟨toLowerCase kw, cat, 0.7, 1, now⟩] := by
  induction rules with
  | nil => rfl
  | cons r rs ih =>
    have hr := h r (List.mem_cons_self r rs)
    unfold addLearnedRule
    rw [if_neg (by simp [hr]), ih (fun r' hr' => h r' (List.mem_cons_of_mem r hr'))]
    rfl

/-- When the first matching rule is `r`, `addLearnedRule` replaces it in
place by its bumped version and leaves everything else unchanged. -/
theorem addLearnedRule_of_match (pre : List CategorizationRule)
    (r : CategorizationRule) (post : List CategorizationRule)
    (kw : JsStr) (cat now : String)
    (hpre : ∀ r' ∈ pre, ruleMatches kw cat r' = false)
    (hr : ruleMatches kw cat r = true) :
    addLearnedRule (pre ++ r :: post) kw cat now = pre ++ bumpRule now r :: post := by
  induction pre with
  | nil =>
    show addLearnedRule (r :: post) kw cat now = bumpRule now r :: post
    unfold addLearnedRule
    rw [if_pos hr]
  | cons p ps ih =>
    have hp := hpre p (List.mem_cons_self p ps)
    show addLearnedRule (p :: (ps ++ r :: post)) kw cat now
      = p :: (ps ++ bumpRule now r :: post)
    unfold addLearnedRule
    rw [if_neg (by simp [hp]), ih (fun r' h' => hpre r' (List.mem_cons_of_mem p h'))]

/-- One confidence-update step in closed form: bumping
`min(1, 0.7 + n/10)` yields `min(1, 0.7 + (n+1)/10)`. -/
theorem min_confidence_step (n : ℕ) :
    min (1:ℚ) (min 1 (0.7 + (n : ℚ)/10) + 0.1)
      = min 1 (0.7 + (((n+1):ℕ) : ℚ)/10) := by
  have hcast : (((n+1):ℕ) : ℚ) = (n:ℚ) + 1 := by push_cast; ring
  rw [hcast]
  have hsplit : ((n:ℚ)+1)/10 = (n:ℚ)/10 + 1/10 := by ring
  rcases le_or_lt (0.7 + (n : ℚ)/10) 1 with h | h
  · rw [min_eq_right h]
    congr 1
    rw [hsplit]; ring
  · rw [min_eq_left h.le, min_eq_left (by norm_num : (1:ℚ) ≤ 1 + 0.1),
      min_eq_left (by rw [hsplit]; linarith)]

/-- A rule freshly written by the model of `addLearnedRule` matches its
own `(keyword, categoryId)` pair again. -/
theorem ruleMatches_self (kw : JsStr) (cat now : String) (c : ℚ) (u : Nat) :
    ruleMatches kw cat ⟨toLowerCase kw, cat, c, u, now⟩ = true := by
  simp [ruleMatches, toLowerCase_idem]

/-- Closed form of `n + 1` identical corrections starting from the empty
store: one rule with usage count `n + 1` and confidence
`min(1, 0.7 + n/10)`. -/
theorem iterateAdd_closed_form (kw : JsStr) (cat now : String) (n : ℕ) :
    iterateAdd kw cat now (n + 1)
      = [⟨toLowerCase kw, cat, min 1 (0.7 + (n : ℚ)/10), n + 1, now⟩] := by
  induction n with
  | zero =>
    show addLearnedRule [] kw cat now = _
    unfold addLearnedRule
    norm_num [min_def]
  | succ n ih =>
    show addLearnedRule (iterateAdd kw cat now (n + 1)) kw cat now = _
    rw [ih]
    unfold addLearnedRule
    rw [if_pos (ruleMatches_self kw cat now _ _)]
    unfold bumpRule
    simp only [List.cons.injEq, CategorizationRule.mk.injEq, and_true, true_and]
    exact min_confidence_step n

/-- C3: the first correction for a `(keyword, categoryId)` pair creates a
rule with confidence 0.7 and usage count 1; each identical reappearance
updates it in place with `usageCount += 1` and
`confidence = min(1, confidence + 0.1)`; iterated from the empty store the
rule's fields follow the closed form `min(1, 0.7 + n/10)` and
`usageCount = n + 1`, which is non-decreasing in `n` and equal to 1 from
the fourth correction on while the usage count keeps incrementing. -/
theorem learn_confidence_monotone (kw : JsStr) (cat now : String)
    (rules : List CategorizationRule) (n : ℕ) :
    ((∀ r ∈ rules, ruleMatches kw cat r = false) →
      addLearnedRule rules kw cat now
        = rules ++ [⟨toLowerCase kw, cat, 0.7, 1, now⟩])
    ∧ (∀ pre r post, rules = pre ++ r :: post →
        (∀ r' ∈ pre, ruleMatches kw cat r' = false) →
        ruleMatches kw cat r = true →
        addLearnedRule rules kw cat now = pre ++ bumpRule now r :: post
          ∧ (bumpRule now r).usageCount = r.usageCount + 1
          ∧ (bumpRule now r).confidence = min 1 (r.confidence + 0.1)
          ∧ (r.confidence ≤ 1 → r.confidence ≤ (bumpRule now r).confidence))
    ∧ iterateAdd kw cat now (n + 1)
        = [⟨toLowerCase kw, cat, min 1 (0.7 + (n : ℚ)/10), n + 1, now⟩]
    ∧ min (1:ℚ) (0.7 + (n : ℚ)/10) ≤ min 1 (0.7 + (((n+1):ℕ) : ℚ)/10)
    ∧ (3 ≤ n → min (1:ℚ) (0.7 + (n : ℚ)/10) = 1) := by
  refine ⟨addLearnedRule_of_no_match rules kw cat now, ?_, iterateAdd_closed_form kw cat now n, ?_, ?_⟩
  · intro pre r post hsplit hpre hr
    subst hsplit
    refine ⟨addLearnedRule_of_match pre r post kw cat now hpre hr, rfl, rfl, ?_⟩
    intro hle
    exact le_min hle (by linarith)
  · have hcast : (((n+1):ℕ) : ℚ) = (n:ℚ) + 1 := by push_cast; ring
    rw [hcast]
    have hsplit : ((n:ℚ)+1)/10 = (n:ℚ)/10 + 1/10 := by ring
    exact min_le_min le_rfl (by rw [hsplit]; linarith)
  · intro hn
    have hn' : (3:ℚ) ≤ (n:ℚ) := by exact_mod_cast hn
    exact min_eq_left (by linarith)

/-- Witness for C3: creation, one in-place bump, the closed form after
five identical corrections, and confidence saturation at 1. -/
theorem learn_confidence_monotone_witness :
    addLearnedRule [] (chars "Uber") "transporte" "t0"
      = [] ++ [⟨toLowerCase (chars "Uber"), "transporte", 0.7, 1, "t0"⟩]
    ∧ addLearnedRule [⟨chars "uber", "transporte", 0.7, 1, "t0"⟩] (chars "Uber") "transporte" "t1"
      = [] ++ bumpRule "t1" ⟨chars "uber", "transporte", 0.7, 1, "t0"⟩ :: []
    ∧ iterateAdd (chars "Uber") "transporte" "t0" 5
      = [⟨toLowerCase (chars "Uber"), "transporte", min 1 (0.7 + ((4:ℕ) : ℚ)/10), 5, "t0"⟩]
    ∧ min (1:ℚ) (0.7 + ((4:ℕ) : ℚ)/10) = 1 := by
  refine ⟨?_, ?_, ?_, ?_⟩
  · exact (learn_confidence_monotone (chars "Uber") "transporte" "t0" [] 0).1
      (by intro r hr; simp at hr)
  · exact ((learn_confidence_monotone (chars "Uber") "transporte" "t1"
      [⟨chars "uber", "transporte", 0.7, 1, "t0"⟩] 0).2.1
      [] ⟨chars "uber", "transporte", 0.7, 1, "t0"⟩ [] rfl
      (by intro r hr; simp at hr) (by decide)).1
  · exact (learn_confidence_monotone (chars "Uber") "transporte" "t0" [] 4).2.2.1
  · exact (learn_confidence_monotone (chars "Uber") "transporte" "t0" [] 4).2.2.2.2
      (by norm_num)

/-- C7: `categorizeTransactions` yields exactly one merged result per
input transaction, in input order; an element with an empty/short
description resolves to the default fallback without affecting the other
elements. -/
theorem batch_resilience (mkFuse : List CategorizationRule → FuseInst)
    (fuseInstance : Option FuseInst) (storage : RuleStorage)
    (txs : List Transaction) :
    (categorizeTransactions mkFuse fuseInstance storage txs).length = txs.length
    ∧ (∀ i : ℕ, (categorizeTransactions mkFuse fuseInstance storage txs)[i]? =
        (txs[i]?).map (fun t =>
          mergeResult t (categorizeTransaction mkFuse fuseInstance storage t.description)))
    ∧ (∀ i : ℕ, ∀ t : Transaction, txs[i]? = some t →
        (jsTrim t.description).length < 2 →
        (categorizeTransactions mkFuse fuseInstance storage txs)[i]? =
          some (mergeResult t defaultResult)) := by
  refine ⟨List.length_map txs _, fun i => List.getElem?_map _ txs i, ?_⟩
  intro i t ht hshort
  unfold categorizeTransactions
  rw [List.getElem?_map _ txs i, ht]
  rw [Option.map_some']
  rw [categorize_guard mkFuse fuseInstance storage t.description (Or.inr hshort)]

/-- Witness for C7: a two-element batch whose first transaction has an
empty description still produces two results, the first being the merged
default fallback. -/
theorem batch_resilience_witness :
    (categorizeTransactions (fun _ => fun _ => []) none RuleStorage.absent
      [⟨"t1", "2024-01-15", chars "", -10, "food", "Itau", true⟩,
       ⟨"t2", "2024-01-16", chars "uber viagem", -20, "old", "Itau", false⟩]).length = 2
    ∧ (categorizeTransactions (fun _ => fun _ => []) none RuleStorage.absent
      [⟨"t1", "2024-01-15", chars "", -10, "food", "Itau", true⟩,
       ⟨"t2", "2024-01-16", chars "uber viagem", -20, "old", "Itau", false⟩])[0]? =
      some (mergeResult ⟨"t1", "2024-01-15", chars "", -10, "food", "Itau", true⟩ defaultResult) := by
  have h := batch_resilience (fun _ => fun _ => []) none RuleStorage.absent
    [⟨"t1", "2024-01-15", chars "", -10, "food", "Itau", true⟩,
     ⟨"t2", "2024-01-16", chars "uber viagem", -20, "old", "Itau", false⟩]
  exact ⟨h.1, h.2.2 0 ⟨"t1", "2024-01-15", chars "", -10, "food", "Itau", true⟩ rfl (by decide)⟩

/-- C9: the merged batch output preserves every field of each input
transaction — including its pre-existing `category` field, which is not
overwritten because the classification contributes the separate fields
`categoryId`, `confidence`, `matchedKeywords`, and `method`. -/
theorem batch_preserves_transaction_fields (mkFuse : List CategorizationRule → FuseInst)
    (fuseInstance : Option FuseInst) (storage : RuleStorage)
    (txs : List Transaction) (i : Fin txs.length) :
    ∃ o : CategorizedTransaction,
      (categorizeTransactions mkFuse fuseInstance storage txs)[i.val]? = some o
      ∧ o.id = (txs.get i).id
      ∧ o.date = (txs.get i).date
      ∧ o.description = (txs.get i).description
      ∧ o.amount = (txs.get i).amount
      ∧ o.category = (txs.get i).category
      ∧ o.account = (txs.get i).account
      ∧ o.isManual = (txs.get i).isManual := by
  refine ⟨mergeResult (txs.get i)
    (categorizeTransaction mkFuse fuseInstance storage (txs.get i).description),
    ?_, rfl, rfl, rfl, rfl, rfl, rfl, rfl⟩
  unfold categorizeTransactions
  rw [List.getElem?_map _ txs i.val, List.getElem?_eq_getElem i.isLt, Option.map_some']
  rfl

/-- Rules produced by `addLearnedRule` always include one whose lowercased
keyword is the lowercased requested keyword, with the requested category. -/
theorem addLearnedRule_mem (rules : List CategorizationRule)
    (kw : JsStr) (cat now : String) :
    ∃ r ∈ addLearnedRule rules kw cat now,
      toLowerCase r.keyword = toLowerCase kw ∧ r.categoryId = cat := by
  induction rules with
  | nil =>
    refine ⟨⟨toLowerCase kw, cat, 0.7, 1, now⟩, List.mem_singleton_self _, ?_, rfl⟩
    exact toLowerCase_idem kw
  | cons r rs ih =>
    unfold addLearnedRule
    by_cases h : ruleMatches kw cat r
    · rw [if_pos h]
      obtain ⟨hkw, hcat⟩ : toLowerCase r.keyword = toLowerCase kw ∧ r.categoryId = cat := by
        unfold ruleMatches at h
        constructor
        · have := (Bool.and_elim_left h)
          simpa using this
        · have := (Bool.and_elim_right h)
          simpa using this
      exact ⟨bumpRule now r, List.mem_cons_self _ _, hkw, hcat⟩
    · rw [if_neg h]
      obtain ⟨r', hr', hprop⟩ := ih
      exact ⟨r', List.mem_cons_of_mem r hr', hprop⟩

/-- C10: `learnFromCorrection` always adds or updates a rule keyed by the
full lowercased description, in addition to the per-token rules; in
particular learning from the empty description on an empty store creates
exactly one rule whose keyword is the empty string, with confidence 0.7
and usage count 1. -/
theorem learn_full_description_rule (rules : List CategorizationRule)
    (desc : JsStr) (cat now : String) :
    (∃ r ∈ learnFromCorrection rules desc cat now,
      toLowerCase r.keyword = toLowerCase desc ∧ r.categoryId = cat)
    ∧ (∀ c n, learnFromCorrection [] [] c n = [⟨[], c, 0.7, 1, n⟩]) := by
  constructor
  · unfold learnFromCorrection
    obtain ⟨r, hr, hkw, hcat⟩ := addLearnedRule_mem
      (((splitOnWs ((toLowerCase desc).filter keepChar)).filter
          (fun w => 2 < w.length)).foldl
        (fun acc w => addLearnedRule acc w cat now) rules)
      (toLowerCase desc) cat now
    rw [toLowerCase_idem] at hkw
    exact ⟨r, hr, hkw, hcat⟩
  · intro c n
    rfl
